import Mathlib

/-!
Verification development for the fixed-protein meal scaler
(`scaler-fixed-protein.js`).

The JavaScript module is shallowly embedded: JS numbers appearing as
targets are modelled by `JNum` (finite rationals plus `nan`, `pinf`,
`ninf`); numeric ingredient fields supplied by callers are modelled as
optional rationals (`none` = absent, defaulting to 0 under the `|| 0`
coercion); `Math.round` is round-half-toward-positive-infinity; regular
expressions in the classifiers are alternations of literal substrings
and are embedded as substring tests; `Array.prototype.sort` with the
comparator `(a._idx||0)-(b._idx||0)` is a stable sort by that key and is
embedded as `List.insertionSort` on the key order, which is stable and
hence extensionally equal to the JS sort.
-/

set_option maxRecDepth 4000
set_option linter.unusedVariables false

attribute [local semireducible] Rat.add Rat.mul Rat.inv Rat.sub Rat.ofScientific

/-- A JavaScript number: a finite rational, `NaN`, or a signed infinity. -/
inductive JNum where
  | nan : JNum
  | pinf : JNum
  | ninf : JNum
  | fin : ℚ → JNum
deriving DecidableEq

namespace JNum

/-- `isFinite` from JS: true exactly on finite values. -/
def isFinite : JNum → Bool
  | fin _ => true
  | _ => false

/-- JS `x || 0`: `NaN` and `0` are falsy (both yield `0`); infinities are truthy. -/
def or0 : JNum → JNum
  | nan => fin 0
  | pinf => pinf
  | ninf => ninf
  | fin q => fin q

/-- JS subtraction of a finite number from a JS number. -/
def subQ : JNum → ℚ → JNum
  | nan, _ => nan
  | pinf, _ => pinf
  | ninf, _ => ninf
  | fin q, r => fin (q - r)

/-- JS `Math.max(0, x)`; `Math.max` propagates `NaN`. -/
def max0 : JNum → JNum
  | nan => nan
  | pinf => pinf
  | ninf => fin 0
  | fin q => fin (max 0 q)

/-- JS comparison `x <= 0` (false on `NaN`). -/
def le0 : JNum → Bool
  | nan => false
  | pinf => false
  | ninf => true
  | fin q => q ≤ 0

/-- JS division of a JS number by a finite number. -/
def divQ : JNum → ℚ → JNum
  | nan, _ => nan
  | pinf, b => if 0 < b then pinf else if b < 0 then ninf else nan
  | ninf, b => if 0 < b then ninf else if b < 0 then pinf else nan
  | fin a, b =>
      if b = 0 then (if a = 0 then nan else if 0 < a then pinf else ninf)
      else fin (a / b)

/-- JS multiplication of a finite number by a JS number. -/
def mulFin (a : ℚ) : JNum → JNum
  | nan => nan
  | pinf => if a = 0 then nan else if 0 < a then pinf else ninf
  | ninf => if a = 0 then nan else if 0 < a then ninf else pinf
  | fin b => fin (a * b)

/-- Extract the rational from a finite JS number (0 otherwise). -/
def getQ : JNum → ℚ
  | fin q => q
  | _ => 0

end JNum

/-- JS `Math.round`: round half toward positive infinity.  (Defined via
`Rat.floor` so that it evaluates by kernel reduction; `jround_eq` below
restates it as `Int.floor`.) -/
def jround (q : ℚ) : ℤ := Rat.floor (q + 1/2)

/-- JS `String.prototype.toLowerCase`, as a character map (ASCII). -/
def lowerStr (s : String) : String := String.mk (s.toList.map Char.toLower)

/-- Does the character list `pat` occur at the head of `s`? -/
def listStartsWith : List Char → List Char → Bool
  | [], _ => true
  | _ :: _, [] => false
  | a :: as, b :: bs => a == b && listStartsWith as bs

/-- Does the character list `pat` occur somewhere inside `s`? -/
def hasSubList (pat : List Char) : List Char → Bool
  | [] => pat.isEmpty
  | c :: cs => listStartsWith pat (c :: cs) || hasSubList pat cs

/-- JS `s.includes(pat)` / literal-substring regex test. -/
def strHasSub (s pat : String) : Bool := hasSubList pat.toList s.toList

/-- A regex alternation of literal substrings: does any pattern occur in `s`? -/
def containsAny (s : String) (pats : List String) : Bool :=
  pats.any (fun p => strHasSub s p)

/-- One ingredient record (a JS object; `none` marks an absent field).
`idx` embeds the `_idx` stable-index field added at pipeline entry. -/
structure Ingredient where
  name : Option String := none
  ingredient : Option String := none
  tags : Option (List String) := none
  amount_g : Option ℚ := none
  amount_cups : Option ℚ := none
  calories_kcal : Option ℚ := none
  protein_g : Option ℚ := none
  idx : Option ℚ := none
deriving DecidableEq

/-- JS `i?.name || i?.ingredient || ''` (empty strings are falsy). -/
def dispName (i : Ingredient) : String :=
  match i.name with
  | some s => if s = "" then (match i.ingredient with
      | some t => t
      | none => "") else s
  | none => match i.ingredient with
      | some t => t
      | none => ""

/-- JS `i.amount_g || 0`. -/
def amt0 (i : Ingredient) : ℚ := (i.amount_g).getD 0

/-- JS `i.calories_kcal || 0`. -/
def cal0 (i : Ingredient) : ℚ := (i.calories_kcal).getD 0

/-- JS `i.protein_g || 0`. -/
def prot0 (i : Ingredient) : ℚ := (i.protein_g).getD 0

/-- JS `i._idx || 0`, the sort key of the stable sort. -/
def idxKey (i : Ingredient) : ℚ := (i.idx).getD 0

/-- JS `i?.tags || []`. -/
def tags0 (i : Ingredient) : List String := (i.tags).getD []

/-- Tag patterns of `isProtein`. -/
def protTagPats : List String :=
  ["protein", "chicken", "turkey", "shrimp", "salmon", "egg", "yogurt",
   "cottage", "tofu", "tempeh", "edamame", "whey", "casein"]

/-- Name patterns of `isProtein`. -/
def protNamePats : List String :=
  ["protein powder", "chicken", "turkey", "shrimp", "salmon", "egg",
   "egg white", "yogurt", "cottage", "tofu", "tempeh", "edamame", "whey",
   "casein"]

/-- `isProtein` from the source: tag patterns first, then name patterns. -/
def isProteinB (i : Ingredient) : Bool :=
  let name := lowerStr (dispName i)
  (tags0 i).any (fun t => containsAny (lowerStr t) protTagPats)
    || containsAny name protNamePats

/-- Tag patterns of `isCarbFat`. -/
def carbTagPats : List String :=
  ["carb", "grain", "starch", "fat", "oil", "cheese", "nut", "seed",
   "avocado", "tortilla", "rice", "oats", "bread", "olive"]

/-- Name patterns of `isCarbFat`. -/
def carbNamePats : List String :=
  ["tortilla", "rice", "oat", "bread", "pasta", "oil", "olive", "butter",
   "cheese", "avocado", "nut", "seed", "granola", "hummus", "bean",
   "black bean", "quinoa", "farro", "brown rice"]

/-- `isCarbFat` from the source. -/
def isCarbFatB (i : Ingredient) : Bool :=
  let name := lowerStr (dispName i)
  (tags0 i).any (fun t => containsAny (lowerStr t) carbTagPats)
    || containsAny name carbNamePats

/-- Tag patterns of `isNonScaling`. -/
def nsTagPats : List String :=
  ["spice", "season", "herb", "zero", "free", "water", "ice", "extract"]

/-- Name patterns of `isNonScaling`. -/
def nsNamePats : List String :=
  ["salt", "pepper", "cinnamon", "garlic powder", "onion powder",
   "paprika", "cumin", "vanilla extract", "ice", "water", "zero-cal"]

/-- `isNonScaling` from the source. -/
def isNonScalingB (i : Ingredient) : Bool :=
  let name := lowerStr (dispName i)
  (tags0 i).any (fun t => containsAny (lowerStr t) nsTagPats)
    || containsAny name nsNamePats

/-- `sum(arr, fn)` from the source. -/
def qsum (l : List Ingredient) (f : Ingredient → ℚ) : ℚ :=
  l.foldl (fun a x => a + f x) 0

/-- Mass ('g') branch of `roundAmount`: clamp at 0, then round to 1 g
below 20, to 5 g up to 150, to 10 g above. -/
def massRound (value : ℚ) : ℚ :=
  let v := max 0 value
  if v ≤ 20 then (jround v : ℚ)
  else if v ≤ 150 then ((jround (v / 5) * 5 : ℤ) : ℚ)
  else ((jround (v / 10) * 10 : ℤ) : ℚ)

/-- The fixed cup-fraction candidates of the volume rounder. -/
def fracList : List ℚ := [0, 1/8, 1/6, 1/4, 1/3, 1/2, 2/3, 3/4, 1]

/-- The `reduce` callback of the volume rounder: replace the current
best only on a strictly smaller absolute difference. -/
def cupStep (value a b : ℚ) : ℚ := if |b - value| < |a - value| then b else a

/-- Volume ('cups') branch of `roundAmount`: the `reduce` scan keeping
the current best unless strictly closer. -/
def cupsRound (value : ℚ) : ℚ := fracList.foldl (cupStep value) 0

/-- `roundAmount(name, unit, value)` from the source.  Non-finite values
yield 0; unknown units pass the value through. -/
def roundAmount (name unit : String) (value : JNum) : JNum :=
  match value with
  | JNum.fin v =>
      if unit = "g" then JNum.fin (massRound v)
      else if unit = "cups" then JNum.fin (cupsRound v)
      else JNum.fin v
  | _ => JNum.fin 0

/-- `guessGPerCup` from the source: grams-per-cup lookup by keyword. -/
def guessGPerCup (name : String) : ℚ :=
  let n := lowerStr name
  if containsAny n ["oat", "granola"] then 80
  else if containsAny n ["rice", "quinoa", "farro"] then 160
  else if containsAny n ["berry", "fruit", "cucumber", "tomato", "zucchini", "pepper"] then 140
  else if containsAny n ["yogurt", "cottage"] then 245
  else if containsAny n ["bean", "chickpea", "edamame"] then 170
  else if containsAny n ["cheese"] then 120
  else if containsAny n ["avocado"] then 150
  else 240

/-- Totals as computed by `computeTotals`: calories rounded to a whole
number, protein to the nearest half. -/
structure Totals where
  calories_kcal : ℤ
  protein_g : ℚ
deriving DecidableEq

/-- `computeTotals` from the source. -/
def computeTotals (ings : List Ingredient) : Totals :=
  { calories_kcal := jround (qsum ings cal0),
    protein_g := ((jround (qsum ings prot0 * 2) : ℚ)) / 2 }

/-- Key order used by `sort((a,b)=>(a._idx||0)-(b._idx||0))`. -/
def keyLe (a b : Ingredient) : Prop := idxKey a ≤ idxKey b

instance : DecidableRel keyLe :=
  fun a b => inferInstanceAs (Decidable (idxKey a ≤ idxKey b))

instance : IsTotal Ingredient keyLe := ⟨fun a b => le_total (idxKey a) (idxKey b)⟩

instance : IsTrans Ingredient keyLe := ⟨fun _ _ _ h h' => le_trans h h'⟩

/-- The JS stable sort by `_idx`, embedded as stable insertion sort on
the key order (extensionally the same function). -/
def sortByIdx (l : List Ingredient) : List Ingredient := l.insertionSort keyLe

/-- The protein partition of stage 1: `out.filter(isProtein)`. -/
def protItems (l : List Ingredient) : List Ingredient := l.filter isProteinB

/-- The complement partition of stage 1. -/
def protOthers (l : List Ingredient) : List Ingredient :=
  l.filter (fun i => !isProteinB i)

/-- Current total protein over the protein partition. -/
def protNow (l : List Ingredient) : ℚ := qsum (protItems l) prot0

/-- The global scale factor of stage 1: `Math.max(0, t / Math.max(1, protNow))`. -/
def protFactor (l : List Ingredient) (t : ℚ) : ℚ :=
  max 0 (t / max 1 (protNow l))

/-- The per-ingredient mutation of stage 1: round the scaled mass, then
apply the corrected factor `newG / max(1, oldG)` to protein and calories. -/
def protScaleItem (factor : ℚ) (P : Ingredient) : Ingredient :=
  let newG := (roundAmount (dispName P) ("g") (JNum.fin (amt0 P * factor))).getQ
  let f := newG / max 1 (amt0 P)
  { P with amount_g := some newG,
           protein_g := some (prot0 P * f),
           calories_kcal := some (cal0 P * f) }

/-- `scaleProteinToTarget` from the source. -/
def scaleProteinToTarget (ings : List Ingredient) (proteinTarget : JNum) :
    List Ingredient :=
  match proteinTarget with
  | JNum.fin t =>
      if protItems ings = [] then ings
      else sortByIdx
        ((protItems ings).map (protScaleItem (protFactor ings t)) ++ protOthers ings)
  | _ => ings

/-- The non-scaling partition of stage 2: `out.filter(isNonScaling)`. -/
def cfNonScaling (l : List Ingredient) : List Ingredient := l.filter isNonScalingB

/-- The scalable partition of stage 2. -/
def cfItems (l : List Ingredient) : List Ingredient :=
  l.filter (fun i => !isNonScalingB i)

/-- Current total calories of the scalable partition. -/
def cfKcalNow (l : List Ingredient) : ℚ := qsum (cfItems l) cal0

/-- Total calories of the non-scaling partition. -/
def cfFixedK (l : List Ingredient) : ℚ := qsum (cfNonScaling l) cal0

/-- The residual calorie target:
`Math.max(0, (caloriesTarget||0) - fixedK)` in JS arithmetic. -/
def cfTargetK (l : List Ingredient) (caloriesTarget : JNum) : JNum :=
  (caloriesTarget.or0.subQ (cfFixedK l)).max0

/-- The per-ingredient mutation of stage 2: same round-then-correct
pattern as stage 1, plus a derived cup measurement. -/
def cfScaleItem (factor : JNum) (i : Ingredient) : Ingredient :=
  let newG := (roundAmount (dispName i) ("g") (JNum.mulFin (amt0 i) factor)).getQ
  let f := newG / max 1 (amt0 i)
  let perCup := guessGPerCup (dispName i)
  { i with amount_g := some newG,
           protein_g := some (prot0 i * f),
           calories_kcal := some (cal0 i * f),
           amount_cups := some ((roundAmount (dispName i) ("cups") (JNum.fin (newG / perCup))).getQ) }

/-- `scaleCarbFatToCalories` from the source. -/
def scaleCarbFatToCalories (ings : List Ingredient) (caloriesTarget : JNum) :
    List Ingredient :=
  if cfKcalNow ings ≤ 0 then ings
  else if (cfTargetK ings caloriesTarget).le0 then ings
  else sortByIdx
    ((cfItems ings).map (cfScaleItem ((cfTargetK ings caloriesTarget).divQ (cfKcalNow ings)))
      ++ cfNonScaling ings)

/-- Recipe metadata as supplied by the caller. -/
structure Recipe where
  id : Option String := none
  name : Option String := none
  instructions : Option String := none
  base_serving : Option String := none
  ingredients : Option (List Ingredient) := none
deriving DecidableEq

/-- The recipe identity passthrough of `finalizeRecipe`. -/
structure RecipeOut where
  id : Option String
  name : Option String
  instructions : String
  base_serving : Option String
deriving DecidableEq

/-- `{ id, name, instructions: recipe?.instructions ?? "", base_serving }`. -/
def recipeOut (recipe : Recipe) : RecipeOut :=
  { id := recipe.id, name := recipe.name,
    instructions := recipe.instructions.getD "",
    base_serving := recipe.base_serving }

/-- Result of `finalizeRecipe`. -/
structure FinalResult where
  recipe : RecipeOut
  ingredients : List Ingredient
  totals : Totals
deriving DecidableEq

/-- JS `x || d` on finite numbers (only 0 is falsy here). -/
def qOr (a d : ℚ) : ℚ := if a = 0 then d else a

/-- The ingredient selected to absorb the corrective nudge: first
carb/fat item with positive calories and nonzero mass, else first item
with nonzero mass and positive calories. -/
def finalCandidate (l : List Ingredient) : Option ℕ :=
  match l.findIdx? (fun i => isCarbFatB i && decide (0 < cal0 i) && !(amt0 i == 0)) with
  | some k => some k
  | none => l.findIdx? (fun i => !(amt0 i == 0) && decide (0 < cal0 i))

/-- The corrective mutation applied to the selected ingredient. -/
def nudgeItem (diff : ℤ) (it : Ingredient) : Ingredient :=
  let calPerG := cal0 it / max 1 (amt0 it)
  let dg := (diff : ℚ) / calPerG
  let newG := (roundAmount (dispName it) ("g") (JNum.fin (amt0 it + dg))).getQ
  let f := newG / max 1 (amt0 it)
  let perCup := qOr (guessGPerCup (dispName it)) 240
  { it with amount_g := some newG,
            amount_cups := some ((roundAmount (dispName it) ("cups") (JNum.fin (newG / perCup))).getQ),
            calories_kcal := some (cal0 it * f),
            protein_g := some (prot0 it * f) }

/-- The nudge step of `finalizeRecipe`: locate the candidate, check
`calPerG > 0`, and replace that one list entry. -/
def applyNudge (l : List Ingredient) (diff : ℤ) : List Ingredient :=
  match finalCandidate l with
  | none => l
  | some k =>
      match l.get? k with
      | none => l
      | some it =>
          if 0 < cal0 it / max 1 (amt0 it) then l.set k (nudgeItem diff it) else l

/-- `finalizeRecipe` from the source.  When no nudge fires the returned
totals are the ones computed before the nudge check; they coincide with
`computeTotals` of the returned (unchanged) list. -/
def finalizeRecipe (recipe : Recipe) (ings : List Ingredient)
    (caloriesTarget : JNum) : FinalResult :=
  let totals := computeTotals ings
  match caloriesTarget with
  | JNum.fin t =>
      let diff := jround (t - (totals.calories_kcal : ℚ))
      if 5 < |diff| then
        let fin2 := applyNudge ings diff
        { recipe := recipeOut recipe, ingredients := fin2,
          totals := computeTotals fin2 }
      else { recipe := recipeOut recipe, ingredients := ings, totals := totals }
  | _ => { recipe := recipeOut recipe, ingredients := ings, totals := totals }

/-- The shapes accepted for the `baseIngredients` argument: a direct
array, or an object whose `ingredients` field may or may not be an array. -/
inductive BaseArg where
  | arr : List Ingredient → BaseArg
  | obj : Option (List Ingredient) → BaseArg
deriving DecidableEq

/-- The shape-tolerant raw-list resolution at the pipeline entry. -/
def pickRawList (recipe : Recipe) : BaseArg → List Ingredient
  | BaseArg.arr l => l
  | BaseArg.obj (some l) => l
  | BaseArg.obj none => recipe.ingredients.getD []

/-- `rawList.map((i,idx) => ({ ...i, _idx: idx }))`, with a running
first index `n`. -/
def addIdx : ℕ → List Ingredient → List Ingredient
  | _, [] => []
  | n, i :: is => { i with idx := some ((n : ℚ)) } :: addIdx (n + 1) is

/-- Result of the exported entry point. -/
structure PipeResult where
  recipe : RecipeOut
  ingredients : List Ingredient
  totals : Totals
  scaled_serving : Totals
deriving DecidableEq

/-- `scaleRecipeForPaths_FixedProtein` from the source. -/
def scaleRecipeForPaths_FixedProtein (recipe : Recipe) (baseIngredients : BaseArg)
    (perMealProteinTarget perMealCalorieTarget : JNum) : PipeResult :=
  let rawList := pickRawList recipe baseIngredients
  let indexed := addIdx 0 rawList
  let step1 := scaleProteinToTarget indexed perMealProteinTarget
  let step2 := scaleCarbFatToCalories step1 perMealCalorieTarget
  let fin := finalizeRecipe recipe step2 perMealCalorieTarget
  { recipe := fin.recipe, ingredients := fin.ingredients, totals := fin.totals,
    scaled_serving := { calories_kcal := fin.totals.calories_kcal,
                        protein_g := fin.totals.protein_g } }

/-- Concrete ingredient: 100 g of oats at 200 kcal (scalable in stage 2). -/
def ingOats : Ingredient :=
  { name := some "oats", amount_g := some 100, calories_kcal := some 200 }

/-- Concrete ingredient: salt with 50 kcal (non-scaling in stage 2). -/
def ingSalt : Ingredient :=
  { name := some "salt", calories_kcal := some 50 }

/-- Concrete ingredient: 150 g chicken, 30 g protein, 240 kcal. -/
def ingChicken : Ingredient :=
  { name := some "chicken", amount_g := some 150, protein_g := some 30,
    calories_kcal := some 240 }

/-- Concrete ingredient: 10 g chicken, 5 g protein, 20 kcal. -/
def ingChicken10 : Ingredient :=
  { name := some "chicken", amount_g := some 10, protein_g := some 5,
    calories_kcal := some 20 }

/-- Concrete ingredient: half a gram of chicken (a positive mass below
the 1-gram denominator floor). -/
def ingChickenHalf : Ingredient :=
  { name := some "chicken", amount_g := some (1/2), calories_kcal := some 100,
    protein_g := some 10 }

/-- Stage-1 image of `ingChickenHalf` under protein target 10. -/
def ingChickenHalfScaled : Ingredient :=
  { name := some "chicken", amount_g := some 1, calories_kcal := some 100,
    protein_g := some 10 }

/-- Concrete ingredient: chicken with a (malformed) negative mass. -/
def ingChickenNeg : Ingredient :=
  { name := some "chicken", amount_g := some (-100), protein_g := some 10 }

/-- Stage-1 image of `ingChickenNeg` under protein target −10. -/
def ingChickenNegScaled : Ingredient :=
  { name := some "chicken", amount_g := some 0, protein_g := some 0,
    calories_kcal := some 0 }

/-- The identity-carrying fields of an ingredient — the fields no stage
mutation ever writes (name, fallback label, tags, stable index). -/
def idOf (i : Ingredient) :
    Option String × Option String × Option (List String) × Option ℚ :=
  (i.name, i.ingredient, i.tags, i.idx)

/-- Positionwise identity fields of a list. -/
def idMap (l : List Ingredient) :
    List (Option String × Option String × Option (List String) × Option ℚ) :=
  l.map idOf

/-- Caller-visible identity of an ingredient (without the stable index). -/
def nameOf (i : Ingredient) : Option String × Option String × Option (List String) :=
  (i.name, i.ingredient, i.tags)

/-- Positionwise caller-visible identities of a list. -/
def nameMap (l : List Ingredient) :
    List (Option String × Option String × Option (List String)) :=
  l.map nameOf

/-- The `_idx` keys of the list are strictly increasing (as arranged by
the pipeline entry, which numbers the list 0,1,2,…). -/
def StrictIdx (l : List Ingredient) : Prop :=
  (l.map idxKey).Pairwise (fun a b => a < b)

/-! ### Rounding facts -/

theorem jround_eq (q : ℚ) : jround q = ⌊q + 1/2⌋ := by
  unfold jround
  rw [Rat.floor_def', Rat.floor_def]

theorem jround_le (q : ℚ) : (jround q : ℚ) ≤ q + 1/2 := by
  rw [jround_eq]
  exact Int.floor_le _

theorem lt_jround (q : ℚ) : q - 1/2 < (jround q : ℚ) := by
  have h := Int.sub_one_lt_floor (q + 1/2)
  rw [jround_eq]
  linarith

theorem abs_jround_sub (q : ℚ) : |(jround q : ℚ) - q| ≤ 1/2 := by
  have h1 := jround_le q
  have h2 := lt_jround q
  rw [abs_le]
  constructor <;> linarith

theorem roundAmount_g_fin (name : String) (x : ℚ) :
    roundAmount name ("g") (JNum.fin x) = JNum.fin (massRound x) := by
  simp [roundAmount]

/-- C7: the Quantity Rounder in mass mode returns 0 for non-finite
input, clamps negative input to 0, rounds values ≤ 20 to the nearest
whole unit, values in (20, 150] to the nearest multiple of 5, and
values above 150 to the nearest multiple of 10. -/
theorem claim7_mass_rounder (name : String) (v : JNum) (q : ℚ) :
    (v.isFinite = false → roundAmount name ("g") v = JNum.fin 0)
  ∧ (q < 0 → roundAmount name ("g") (JNum.fin q) = JNum.fin 0)
  ∧ (0 ≤ q → q ≤ 20 →
      ∃ m : ℤ, roundAmount name ("g") (JNum.fin q) = JNum.fin ((m : ℤ) : ℚ)
        ∧ |((m : ℤ) : ℚ) - q| ≤ 1/2)
  ∧ (20 < q → q ≤ 150 →
      ∃ m : ℤ, roundAmount name ("g") (JNum.fin q) = JNum.fin ((5 * m : ℤ) : ℚ)
        ∧ |((5 * m : ℤ) : ℚ) - q| ≤ 5/2)
  ∧ (150 < q →
      ∃ m : ℤ, roundAmount name ("g") (JNum.fin q) = JNum.fin ((10 * m : ℤ) : ℚ)
        ∧ |((10 * m : ℤ) : ℚ) - q| ≤ 5) := by
  refine ⟨?_, ?_, ?_, ?_, ?_⟩
  · intro h
    cases v with
    | fin x => simp [JNum.isFinite] at h
    | nan => rfl
    | pinf => rfl
    | ninf => rfl
  · intro h
    rw [roundAmount_g_fin]
    simp only [massRound]
    rw [max_eq_left h.le]
    decide
  · intro h0 h20
    rw [roundAmount_g_fin]
    refine ⟨jround q, ?_, abs_jround_sub q⟩
    simp only [massRound]
    rw [max_eq_right h0, if_pos h20]
  · intro h20 h150
    rw [roundAmount_g_fin]
    refine ⟨jround (q / 5), ?_, ?_⟩
    · simp only [massRound]
      rw [max_eq_right (by linarith : (0:ℚ) ≤ q), if_neg (not_le.2 h20), if_pos h150]
      congr 1
      push_cast
      ring
    · have hd : ((5 * jround (q / 5) : ℤ) : ℚ) - q = 5 * ((jround (q / 5) : ℚ) - q / 5) := by
        push_cast
        ring
      rw [hd, abs_mul, abs_of_pos (by norm_num : (0:ℚ) < 5)]
      have hb := abs_jround_sub (q / 5)
      linarith
  · intro h150
    rw [roundAmount_g_fin]
    refine ⟨jround (q / 10), ?_, ?_⟩
    · simp only [massRound]
      rw [max_eq_right (by linarith : (0:ℚ) ≤ q), if_neg (by push_neg; linarith),
        if_neg (not_le.2 h150)]
      congr 1
      push_cast
      ring
    · have hd : ((10 * jround (q / 10) : ℤ) : ℚ) - q = 10 * ((jround (q / 10) : ℚ) - q / 10) := by
        push_cast
        ring
      rw [hd, abs_mul, abs_of_pos (by norm_num : (0:ℚ) < 10)]
      have hb := abs_jround_sub (q / 10)
      linarith

theorem claim7_mass_rounder_witness :
    roundAmount ("flour") ("g") JNum.nan = JNum.fin 0
  ∧ roundAmount ("flour") ("g") (JNum.fin (-3)) = JNum.fin 0
  ∧ ∃ m : ℤ, roundAmount ("flour") ("g") (JNum.fin (37/2)) = JNum.fin ((m : ℤ) : ℚ)
      ∧ |((m : ℤ) : ℚ) - 37/2| ≤ 1/2 := by
  refine ⟨(claim7_mass_rounder ("flour") JNum.nan 0).1 rfl,
    (claim7_mass_rounder ("flour") (JNum.fin (-3)) (-3)).2.1 (by norm_num),
    (claim7_mass_rounder ("flour") JNum.nan (37/2)).2.2.1 (by norm_num) (by norm_num)⟩

theorem finalizeRecipe_fin (r : Recipe) (l : List Ingredient) (t : ℚ) :
    finalizeRecipe r l (JNum.fin t) =
      (if 5 < |jround (t - ((computeTotals l).calories_kcal : ℚ))| then
        { recipe := recipeOut r,
          ingredients := applyNudge l (jround (t - ((computeTotals l).calories_kcal : ℚ))),
          totals := computeTotals
            (applyNudge l (jround (t - ((computeTotals l).calories_kcal : ℚ)))) }
      else { recipe := recipeOut r, ingredients := l, totals := computeTotals l }) := rfl

/-- C6: when the post-rounding calorie total is within 5 of the finite
target, `finalizeRecipe` applies no nudge: the ingredient list is
returned unchanged and the totals are those of its input. -/
theorem claim6_no_nudge (r : Recipe) (l : List Ingredient) (t : ℚ)
    (h : |jround (t - ((computeTotals l).calories_kcal : ℚ))| ≤ 5) :
    (finalizeRecipe r l (JNum.fin t)).ingredients = l
  ∧ (finalizeRecipe r l (JNum.fin t)).totals = computeTotals l := by
  have hne : ¬ (5 < |jround (t - ((computeTotals l).calories_kcal : ℚ))|) := not_lt.2 h
  rw [finalizeRecipe_fin, if_neg hne]
  exact ⟨rfl, rfl⟩

theorem claim6_no_nudge_witness :
    (finalizeRecipe {} [ingOats] (JNum.fin 203)).ingredients = [ingOats]
  ∧ (finalizeRecipe {} [ingOats] (JNum.fin 203)).totals = computeTotals [ingOats] :=
  claim6_no_nudge {} [ingOats] 203 (by decide)

/-- C1 (amended): a non-finite protein target makes the protein stage a
no-op; the calorie stage is a no-op for a `NaN` target (which the
`|| 0` coercion turns into 0) whenever the non-scaling group's calories
are nonnegative, and for a −∞ target — but not for a +∞ target. -/
theorem claim1_nonfinite_noop :
    (∀ (ings : List Ingredient) (t : JNum), t.isFinite = false →
        scaleProteinToTarget ings t = ings)
  ∧ (∀ ings : List Ingredient, scaleCarbFatToCalories ings JNum.ninf = ings)
  ∧ (∀ ings : List Ingredient, 0 ≤ cfFixedK ings →
        scaleCarbFatToCalories ings JNum.nan = ings) := by
  refine ⟨?_, ?_, ?_⟩
  · intro ings t ht
    cases t with
    | fin x => simp [JNum.isFinite] at ht
    | nan => rfl
    | pinf => rfl
    | ninf => rfl
  · intro ings
    have h : (cfTargetK ings JNum.ninf).le0 = true := rfl
    unfold scaleCarbFatToCalories
    split_ifs with h1
    · rfl
    · rfl
  · intro ings hfix
    have h : (cfTargetK ings JNum.nan).le0 = true := by
      unfold cfTargetK
      simp only [JNum.or0, JNum.subQ, JNum.max0, JNum.le0]
      rw [decide_eq_true_eq]
      simp only [zero_sub, max_le_iff, le_refl, true_and]
      linarith
    unfold scaleCarbFatToCalories
    split_ifs with h1
    · rfl
    · rfl

theorem claim1_nonfinite_noop_witness :
    scaleProteinToTarget [ingOats] JNum.pinf = [ingOats]
  ∧ scaleCarbFatToCalories [ingOats] JNum.nan = [ingOats] :=
  ⟨claim1_nonfinite_noop.1 [ingOats] JNum.pinf rfl,
   claim1_nonfinite_noop.2.2 [ingOats] (by decide)⟩

/-- C1 fails as stated: a +∞ calorie target is non-finite but the
calorie stage is not a no-op on it — it zeroes the scalable
ingredient's quantities. -/
theorem claim1_nonfinite_noop_cex :
    JNum.isFinite JNum.pinf = false
  ∧ scaleCarbFatToCalories [ingOats] JNum.pinf ≠ [ingOats] := by
  decide

/-! ### The calorie stage's residual target and factor (C5) -/

theorem jnle0_fin (q : ℚ) : (JNum.fin q).le0 = decide (q ≤ 0) := rfl

theorem jndivQ_fin (a b : ℚ) (hb : b ≠ 0) :
    (JNum.fin a).divQ b = JNum.fin (a / b) := by
  simp [JNum.divQ, hb]

/-- C5: the residual target of the Calorie Scaling Stage is
`max(0, calorieTarget − fixed calories)`; with positive residual target
and positive scalable calories every scalable ingredient is scaled by
`residual / current` (mass rounded), and on the concrete
salt(50 kcal)/oats(200 kcal) list with target 300 the residual is 250
and the factor 5/4. -/
theorem claim5_residual_and_factor :
    (∀ (l : List Ingredient) (ct : ℚ),
        cfTargetK l (JNum.fin ct) = JNum.fin (max 0 (ct - cfFixedK l)))
  ∧ (∀ (l : List Ingredient) (ct : ℚ), 0 < cfKcalNow l →
        0 < max 0 (ct - cfFixedK l) →
        scaleCarbFatToCalories l (JNum.fin ct) =
          sortByIdx ((cfItems l).map
              (cfScaleItem (JNum.fin (max 0 (ct - cfFixedK l) / cfKcalNow l)))
            ++ cfNonScaling l))
  ∧ (∀ (i : Ingredient) (f : ℚ),
        amt0 (cfScaleItem (JNum.fin f) i) = massRound (amt0 i * f))
  ∧ cfTargetK [ingSalt, ingOats] (JNum.fin 300) = JNum.fin 250
  ∧ (cfTargetK [ingSalt, ingOats] (JNum.fin 300)).divQ (cfKcalNow [ingSalt, ingOats])
      = JNum.fin (5/4) := by
  refine ⟨fun l ct => rfl, ?_, ?_, by decide, by decide⟩
  · intro l ct hk hres
    have hk0 : cfKcalNow l ≠ 0 := ne_of_gt hk
    have htg : cfTargetK l (JNum.fin ct) = JNum.fin (max 0 (ct - cfFixedK l)) := rfl
    have hle : (JNum.fin (max 0 (ct - cfFixedK l))).le0 = false := by
      rw [jnle0_fin, decide_eq_false_iff_not]
      exact not_le.2 hres
    unfold scaleCarbFatToCalories
    rw [if_neg (not_le.2 hk), htg, hle, jndivQ_fin _ _ hk0]
    simp
  · intro i f
    simp [cfScaleItem, amt0, JNum.mulFin, roundAmount, JNum.getQ]

theorem claim5_residual_and_factor_witness :
    scaleCarbFatToCalories [ingSalt, ingOats] (JNum.fin 300) =
      sortByIdx ((cfItems [ingSalt, ingOats]).map
          (cfScaleItem (JNum.fin (max 0 (300 - cfFixedK [ingSalt, ingOats])
            / cfKcalNow [ingSalt, ingOats])))
        ++ cfNonScaling [ingSalt, ingOats]) :=
  claim5_residual_and_factor.2.1 [ingSalt, ingOats] 300 (by decide) (by decide)

/-! ### Proportional scaling of calories and protein (C2) -/

theorem scale_cross_mul (c g a : ℚ) (h : 1 ≤ a) :
    c * (g / max 1 a) * a = c * g := by
  rw [max_eq_right h]
  have ha : a ≠ 0 := by positivity
  field_simp

/-- C2 (amended): in both scaling stages, an ingredient whose original
gram amount is at least 1 has its calories and protein multiplied by
exactly the factor its gram quantity is multiplied by
(`new × old.amount = old × new.amount`).  Below 1 gram the corrected
factor divides by the floor `max(1, oldAmount)` instead of `oldAmount`
and exact proportionality fails. -/
theorem claim2_proportional_scaling :
    (∀ (l : List Ingredient) (t : ℚ) (i : Ingredient), i ∈ protItems l →
        1 ≤ amt0 i →
        cal0 (protScaleItem (protFactor l t) i) * amt0 i
            = cal0 i * amt0 (protScaleItem (protFactor l t) i)
        ∧ prot0 (protScaleItem (protFactor l t) i) * amt0 i
            = prot0 i * amt0 (protScaleItem (protFactor l t) i))
  ∧ (∀ (l : List Ingredient) (ct : JNum) (i : Ingredient), i ∈ cfItems l →
        1 ≤ amt0 i →
        cal0 (cfScaleItem ((cfTargetK l ct).divQ (cfKcalNow l)) i) * amt0 i
            = cal0 i * amt0 (cfScaleItem ((cfTargetK l ct).divQ (cfKcalNow l)) i)
        ∧ prot0 (cfScaleItem ((cfTargetK l ct).divQ (cfKcalNow l)) i) * amt0 i
            = prot0 i * amt0 (cfScaleItem ((cfTargetK l ct).divQ (cfKcalNow l)) i)) := by
  constructor
  · intro l t i hmem ha
    constructor
    · show cal0 i * (_ / max 1 (amt0 i)) * amt0 i = cal0 i * _
      exact scale_cross_mul _ _ _ ha
    · show prot0 i * (_ / max 1 (amt0 i)) * amt0 i = prot0 i * _
      exact scale_cross_mul _ _ _ ha
  · intro l ct i hmem ha
    constructor
    · show cal0 i * (_ / max 1 (amt0 i)) * amt0 i = cal0 i * _
      exact scale_cross_mul _ _ _ ha
    · show prot0 i * (_ / max 1 (amt0 i)) * amt0 i = prot0 i * _
      exact scale_cross_mul _ _ _ ha

theorem claim2_proportional_scaling_witness :
    cal0 (protScaleItem (protFactor [ingChicken10] 5) ingChicken10) * amt0 ingChicken10
      = cal0 ingChicken10 * amt0 (protScaleItem (protFactor [ingChicken10] 5) ingChicken10) :=
  (claim2_proportional_scaling.1 [ingChicken10] 5 ingChicken10 (by decide) (by decide)).1

/-- C2 fails as stated: `ingChickenHalf` has positive original amount
1/2 g and is scaled by the protein stage, but its calories are not
multiplied by the same factor as its gram quantity (the corrected
factor divides by `max(1, 1/2) = 1`, not by 1/2). -/
theorem claim2_proportional_scaling_cex :
    0 < amt0 ingChickenHalf
  ∧ scaleProteinToTarget [ingChickenHalf] (JNum.fin 10) = [ingChickenHalfScaled]
  ∧ ¬ (cal0 ingChickenHalfScaled * amt0 ingChickenHalf
        = cal0 ingChickenHalf * amt0 ingChickenHalfScaled) := by
  decide

/-! ### The protein stage's formulas (C4) -/

theorem protScaleItem_fields (f : ℚ) (i : Ingredient) :
    amt0 (protScaleItem f i) = massRound (amt0 i * f)
  ∧ cal0 (protScaleItem f i) = cal0 i * (massRound (amt0 i * f) / max 1 (amt0 i))
  ∧ prot0 (protScaleItem f i) = prot0 i * (massRound (amt0 i * f) / max 1 (amt0 i)) := by
  refine ⟨?_, ?_, ?_⟩ <;> simp [protScaleItem, amt0, cal0, prot0, roundAmount, JNum.getQ]

theorem scaleProteinToTarget_fin (l : List Ingredient) (t : ℚ) :
    scaleProteinToTarget l (JNum.fin t) =
      if protItems l = [] then l
      else sortByIdx ((protItems l).map (protScaleItem (protFactor l t)) ++ protOthers l) := rfl

/-- C4 (amended): with a finite protein target and a nonempty protein
partition, each protein-bearing ingredient's new gram amount is the
mass-mode rounding of `oldAmount × max(0, target / max(1, totalProtein))`
— the global factor carries the `Math.max(0, ·)` clamp the claim
omits — and its calories and protein are multiplied by the
per-ingredient corrected factor `newAmount / max(1, oldAmount)`. -/
theorem claim4_protein_stage_formulas :
    (∀ (l : List Ingredient) (t : ℚ),
        protFactor l t = max 0 (t / max 1 (protNow l)))
  ∧ (∀ (l : List Ingredient) (t : ℚ), protItems l ≠ [] →
        scaleProteinToTarget l (JNum.fin t) =
          sortByIdx ((protItems l).map (protScaleItem (protFactor l t)) ++ protOthers l))
  ∧ (∀ (l : List Ingredient) (t : ℚ) (i : Ingredient), i ∈ protItems l →
        amt0 (protScaleItem (protFactor l t) i)
            = massRound (amt0 i * max 0 (t / max 1 (protNow l)))
        ∧ cal0 (protScaleItem (protFactor l t) i)
            = cal0 i * (massRound (amt0 i * max 0 (t / max 1 (protNow l))) / max 1 (amt0 i))
        ∧ prot0 (protScaleItem (protFactor l t) i)
            = prot0 i * (massRound (amt0 i * max 0 (t / max 1 (protNow l))) / max 1 (amt0 i))) := by
  refine ⟨fun l t => rfl, ?_, ?_⟩
  · intro l t hne
    rw [scaleProteinToTarget_fin, if_neg hne]
  · intro l t i hmem
    exact protScaleItem_fields (protFactor l t) i

theorem claim4_protein_stage_formulas_witness :
    scaleProteinToTarget [ingChicken] (JNum.fin 45) =
      sortByIdx ((protItems [ingChicken]).map
          (protScaleItem (protFactor [ingChicken] 45)) ++ protOthers [ingChicken])
  ∧ amt0 (protScaleItem (protFactor [ingChicken] 45) ingChicken)
      = massRound (amt0 ingChicken * max 0 (45 / max 1 (protNow [ingChicken]))) :=
  ⟨claim4_protein_stage_formulas.2.1 [ingChicken] 45 (by decide),
   (claim4_protein_stage_formulas.2.2 [ingChicken] 45 ingChicken (by decide)).1⟩

/-- C4 fails as stated: for a (malformed) negative mass and a negative
finite target the claim's unclamped formula predicts a new mass of 100 g
while the stage — whose factor is clamped at 0 — produces 0 g. -/
theorem claim4_protein_stage_formulas_cex :
    protItems [ingChickenNeg] ≠ []
  ∧ scaleProteinToTarget [ingChickenNeg] (JNum.fin (-10)) = [ingChickenNegScaled]
  ∧ amt0 ingChickenNegScaled = 0
  ∧ massRound (amt0 ingChickenNeg * ((-10) / max 1 (protNow [ingChickenNeg]))) = 100
  ∧ (0 : ℚ) ≠ 100 := by
  decide

/-! ### The cup-fraction rounder (C8) -/

theorem cupFold_min (v : ℚ) : ∀ (l : List ℚ) (a : ℚ),
    |l.foldl (cupStep v) a - v| ≤ |a - v|
    ∧ ∀ b ∈ l, |l.foldl (cupStep v) a - v| ≤ |b - v| := by
  intro l
  induction l with
  | nil => exact fun a => ⟨le_refl _, by simp⟩
  | cons b bs ih =>
    intro a
    have hstep : |cupStep v a b - v| ≤ |a - v| ∧ |cupStep v a b - v| ≤ |b - v| := by
      unfold cupStep
      split_ifs with h
      · exact ⟨h.le, le_refl _⟩
      · exact ⟨le_refl _, not_lt.1 h⟩
    have ihs := ih (cupStep v a b)
    refine ⟨le_trans ihs.1 hstep.1, ?_⟩
    intro c hc
    rcases List.mem_cons.1 hc with hcb | hcbs
    · rw [hcb]
      exact le_trans ihs.1 hstep.2
    · exact ihs.2 c hcbs

theorem cupFold_first (v : ℚ) : ∀ (l : List ℚ) (a : ℚ),
    ∃ l₁ l₂, a :: l = l₁ ++ (l.foldl (cupStep v) a) :: l₂
      ∧ ∀ b ∈ l₁, |l.foldl (cupStep v) a - v| < |b - v| := by
  intro l
  induction l with
  | nil => exact fun a => ⟨[], [], rfl, by simp⟩
  | cons b bs ih =>
    intro a
    by_cases h : |b - v| < |a - v|
    · have hb : cupStep v a b = b := if_pos h
      obtain ⟨l₁, l₂, heq, hlt⟩ := ih (cupStep v a b)
      refine ⟨a :: l₁, l₂, ?_, ?_⟩
      · rw [List.foldl_cons, List.cons_append, ← heq, hb]
      · intro c hc
        rcases List.mem_cons.1 hc with hca | hcl
        · rw [List.foldl_cons, hca]
          calc |bs.foldl (cupStep v) (cupStep v a b) - v|
              ≤ |cupStep v a b - v| := (cupFold_min v bs _).1
            _ = |b - v| := by rw [hb]
            _ < |a - v| := h
        · rw [List.foldl_cons]
          exact hlt c hcl
    · have hb : cupStep v a b = a := if_neg h
      obtain ⟨l₁, l₂, heq, hlt⟩ := ih (cupStep v a b)
      rw [hb] at heq hlt
      cases l₁ with
      | nil =>
        rw [List.nil_append] at heq
        obtain ⟨h1, h2⟩ := List.cons_eq_cons.mp heq
        refine ⟨[], b :: bs, ?_, by simp⟩
        rw [List.nil_append, List.foldl_cons, hb, ← h1]
      | cons x xs =>
        rw [List.cons_append] at heq
        obtain ⟨hx, hbs⟩ := List.cons_eq_cons.mp heq
        refine ⟨a :: b :: xs, l₂, ?_, ?_⟩
        · rw [List.foldl_cons, hb, List.cons_append, List.cons_append, ← hbs]
        · have hfa : |bs.foldl (cupStep v) a - v| < |a - v| := by
            refine hlt a ?_
            rw [hx]
            exact List.mem_cons_self x xs
          intro c hc
          rcases List.mem_cons.1 hc with hca | hc'
          · rw [List.foldl_cons, hb, hca]
            exact hfa
          · rcases List.mem_cons.1 hc' with hcb | hcx
            · rw [List.foldl_cons, hb, hcb]
              exact lt_of_lt_of_le hfa (not_lt.1 h)
            · rw [List.foldl_cons, hb]
              exact hlt c (List.mem_cons_of_mem x hcx)

/-- C8: for every finite input, the cups-mode rounder returns a member
of the fixed fraction set with minimal absolute difference from the
input, and among equally close candidates the one earliest in the
ascending candidate list wins (every earlier candidate is strictly
farther). -/
theorem claim8_cups_rounder (name : String) (v : ℚ) :
    ∃ q : ℚ, roundAmount name ("cups") (JNum.fin v) = JNum.fin q
      ∧ q ∈ fracList
      ∧ (∀ b ∈ fracList, |q - v| ≤ |b - v|)
      ∧ ∃ l₁ l₂, fracList = l₁ ++ q :: l₂ ∧ ∀ b ∈ l₁, |q - v| < |b - v| := by
  have hsplit : ∃ l₁ l₂, fracList = l₁ ++ (cupsRound v) :: l₂
      ∧ ∀ b ∈ l₁, |cupsRound v - v| < |b - v| := by
    obtain ⟨l₁, l₂, heq, hlt⟩ := cupFold_first v fracList 0
    unfold cupsRound
    cases l₁ with
    | nil =>
      rw [List.nil_append] at heq
      obtain ⟨h1, h2⟩ := List.cons_eq_cons.mp heq
      refine ⟨[], fracList.tail, ?_, by simp⟩
      rw [List.nil_append, ← h1]
      decide
    | cons x xs =>
      rw [List.cons_append] at heq
      obtain ⟨hx, hbs⟩ := List.cons_eq_cons.mp heq
      refine ⟨xs, l₂, hbs, ?_⟩
      intro b hb
      exact hlt b (List.mem_cons_of_mem x hb)
  obtain ⟨l₁, l₂, heq, hlt⟩ := hsplit
  refine ⟨cupsRound v, by simp [roundAmount], ?_, ?_, l₁, l₂, heq, hlt⟩
  · rw [heq]
    exact List.mem_append_right l₁ (List.mem_cons_self _ _)
  · intro b hb
    exact (cupFold_min v fracList 0).2 b hb

theorem claim8_cups_rounder_witness :
    ∃ q : ℚ, roundAmount ("milk") ("cups") (JNum.fin (1/5)) = JNum.fin q
      ∧ q ∈ fracList
      ∧ (∀ b ∈ fracList, |q - 1/5| ≤ |b - 1/5|)
      ∧ ∃ l₁ l₂, fracList = l₁ ++ q :: l₂ ∧ ∀ b ∈ l₁, |q - 1/5| < |b - 1/5| :=
  claim8_cups_rounder ("milk") (1/5)

/-! ### Stable sorting by the `_idx` key -/

theorem sortByIdx_perm (l : List Ingredient) : (sortByIdx l).Perm l :=
  List.perm_insertionSort keyLe l

theorem sortByIdx_sorted (l : List Ingredient) : List.Sorted keyLe (sortByIdx l) :=
  List.sorted_insertionSort keyLe l

/-- A list with strictly increasing keys equals any weakly key-sorted
permutation of itself. -/
theorem eq_of_perm_strict_sorted : ∀ {l₁ l₂ : List Ingredient}, l₁.Perm l₂ →
    (l₁.map idxKey).Pairwise (fun a b => a < b) → List.Sorted keyLe l₂ → l₁ = l₂ := by
  intro l₁
  induction l₁ with
  | nil =>
    intro l₂ hp _ _
    exact (List.Perm.nil_eq hp).symm ▸ rfl
  | cons x xs ih =>
    intro l₂ hp hs₁ hs₂
    cases l₂ with
    | nil => exact absurd hp.eq_nil (List.cons_ne_nil x xs)
    | cons y ys =>
      by_cases hxy : x = y
      · subst hxy
        have hxs : xs = ys := by
          refine ih hp.cons_inv ?_ (List.sorted_cons.mp hs₂).2
          rw [List.map_cons, List.pairwise_cons] at hs₁
          exact hs₁.2
        rw [hxs]
      · exfalso
        have hx2 : x ∈ y :: ys := hp.subset (List.mem_cons_self x xs)
        have hy1 : y ∈ x :: xs := hp.symm.subset (List.mem_cons_self y ys)
        have hxys : x ∈ ys := (List.mem_cons.1 hx2).resolve_left hxy
        have hyxs : y ∈ xs := (List.mem_cons.1 hy1).resolve_left (fun hh => hxy hh.symm)
        have h1 : idxKey x < idxKey y := by
          rw [List.pairwise_map, List.pairwise_cons] at hs₁
          exact hs₁.1 y hyxs
        have h2 : keyLe y x := (List.sorted_cons.mp hs₂).1 x hxys
        exact absurd h1 (not_lt.2 h2)

/-- The stable sort undoes the filter-partitioning: on a list with
strictly increasing keys, mapping a key-preserving `f` over the `p`-part
and re-sorting the two parts is just a positionwise map. -/
theorem stage_map_sort (p : Ingredient → Bool) (f : Ingredient → Ingredient)
    (hf : ∀ i, idxKey (f i) = idxKey i) (l : List Ingredient) (hl : StrictIdx l) :
    sortByIdx ((l.filter p).map f ++ l.filter (fun i => !p i))
      = l.map (fun i => if p i then f i else i) := by
  have hkey : ∀ i, idxKey (if p i then f i else i) = idxKey i := by
    intro i
    by_cases h : p i <;> simp [h, hf]
  have h1 : (l.filter p).map f = (l.filter p).map (fun i => if p i then f i else i) := by
    apply List.map_congr_left
    intro a ha
    have hpa : p a := List.of_mem_filter ha
    simp [hpa]
  have h2 : (l.filter (fun i => !p i)).map (fun i => if p i then f i else i)
      = l.filter (fun i => !p i) := by
    conv_rhs => rw [← List.map_id (l.filter (fun i => !p i))]
    apply List.map_congr_left
    intro a ha
    have hpa := List.of_mem_filter ha
    rw [Bool.not_eq_true'] at hpa
    simp [hpa]
  have hX : (l.filter p).map f ++ l.filter (fun i => !p i)
      = (l.filter p).map (fun i => if p i then f i else i)
        ++ (l.filter (fun i => !p i)).map (fun i => if p i then f i else i) := by
    rw [← h1, h2]
  have hperm : ((l.filter p).map f ++ l.filter (fun i => !p i)).Perm
      (l.map (fun i => if p i then f i else i)) := by
    rw [hX, ← List.map_append]
    exact (List.filter_append_perm p l).map _
  have hstrict : ((l.map (fun i => if p i then f i else i)).map idxKey).Pairwise
      (fun a b => a < b) := by
    have hmm : (l.map (fun i => if p i then f i else i)).map idxKey = l.map idxKey := by
      rw [List.map_map]
      apply List.map_congr_left
      intro a ha
      exact hkey a
    rw [hmm]
    exact hl
  have hperm2 : (l.map (fun i => if p i then f i else i)).Perm
      (sortByIdx ((l.filter p).map f ++ l.filter (fun i => !p i))) :=
    (hperm.symm).trans (sortByIdx_perm _).symm
  exact (eq_of_perm_strict_sorted hperm2 hstrict (sortByIdx_sorted _)).symm

/-! ### Stage mutations preserve identity fields -/

theorem idOf_protScaleItem (f : ℚ) (i : Ingredient) :
    idOf (protScaleItem f i) = idOf i := rfl

theorem idOf_cfScaleItem (f : JNum) (i : Ingredient) :
    idOf (cfScaleItem f i) = idOf i := rfl

theorem idOf_nudgeItem (d : ℤ) (i : Ingredient) :
    idOf (nudgeItem d i) = idOf i := rfl

theorem prot_stage_idMap (l : List Ingredient) (pt : JNum) (hl : StrictIdx l) :
    idMap (scaleProteinToTarget l pt) = idMap l := by
  cases pt with
  | fin t =>
    rw [scaleProteinToTarget_fin]
    split_ifs with h
    · rfl
    · unfold protItems protOthers
      rw [stage_map_sort isProteinB (protScaleItem (protFactor l t)) (fun i => rfl) l hl]
      unfold idMap
      rw [List.map_map]
      apply List.map_congr_left
      intro a ha
      by_cases hp : isProteinB a <;> simp [Function.comp, hp, idOf_protScaleItem]
  | nan => rfl
  | pinf => rfl
  | ninf => rfl

theorem cf_stage_idMap (l : List Ingredient) (ct : JNum) (hl : StrictIdx l) :
    idMap (scaleCarbFatToCalories l ct) = idMap l := by
  unfold scaleCarbFatToCalories
  split_ifs with h1 h2
  · rfl
  · rfl
  · have hms := stage_map_sort (fun i => !isNonScalingB i)
      (cfScaleItem ((cfTargetK l ct).divQ (cfKcalNow l))) (fun i => rfl) l hl
    simp only [Bool.not_not] at hms
    unfold cfItems cfNonScaling
    rw [hms]
    unfold idMap
    rw [List.map_map]
    apply List.map_congr_left
    intro a ha
    by_cases hp : isNonScalingB a <;> simp [Function.comp, hp, idOf_cfScaleItem]

theorem idMap_set : ∀ (l : List Ingredient) (k : ℕ) (it x : Ingredient),
    l.get? k = some it → idOf x = idOf it → idMap (l.set k x) = idMap l := by
  intro l
  induction l with
  | nil =>
    intro k it x h _
    simp at h
  | cons a as ih =>
    intro k it x h hid
    cases k with
    | zero =>
      have ha : a = it := by
        simpa using h
      unfold idMap
      simp only [List.set, List.map_cons]
      rw [hid, ha]
    | succ k' =>
      simp only [List.get?] at h
      unfold idMap
      simp only [List.set, List.map_cons]
      have := ih k' it x h hid
      unfold idMap at this
      rw [this]

theorem idMap_applyNudge (l : List Ingredient) (d : ℤ) :
    idMap (applyNudge l d) = idMap l := by
  unfold applyNudge
  split
  · rfl
  · split
    · rfl
    · rename_i x1 k hcand x2 it hget
      split_ifs with h
      · exact idMap_set l k it (nudgeItem d it) hget (idOf_nudgeItem d it)
      · rfl

theorem finalize_idMap (r : Recipe) (l : List Ingredient) (ct : JNum) :
    idMap ((finalizeRecipe r l ct).ingredients) = idMap l := by
  cases ct with
  | fin t =>
    rw [finalizeRecipe_fin]
    split_ifs with h
    · exact idMap_applyNudge l _
    · rfl
  | nan => rfl
  | pinf => rfl
  | ninf => rfl

/-! ### The stable index added at pipeline entry -/

theorem addIdx_idxMap : ∀ (l : List Ingredient) (n : ℕ),
    (addIdx n l).map (fun i => i.idx)
      = (List.range l.length).map (fun k => some (((n + k : ℕ) : ℚ))) := by
  intro l
  induction l with
  | nil => intro n; rfl
  | cons a as ih =>
    intro n
    show some ((n : ℚ)) :: (addIdx (n + 1) as).map (fun i => i.idx) = _
    rw [List.length_cons, List.range_succ_eq_map, List.map_cons, List.map_map]
    congr 1
    rw [ih (n + 1)]
    apply List.map_congr_left
    intro k hk
    simp only [Function.comp]
    congr 1
    push_cast
    ring

theorem addIdx_keyMap : ∀ (l : List Ingredient) (n : ℕ),
    (addIdx n l).map idxKey = (List.range l.length).map (fun k => ((n + k : ℕ) : ℚ)) := by
  intro l n
  have e : (addIdx n l).map idxKey
      = ((addIdx n l).map (fun i => i.idx)).map (fun o => o.getD 0) := by
    rw [List.map_map]
    rfl
  rw [e, addIdx_idxMap, List.map_map]
  rfl

theorem addIdx_strict (l : List Ingredient) (n : ℕ) : StrictIdx (addIdx n l) := by
  unfold StrictIdx
  rw [addIdx_keyMap, List.pairwise_map]
  refine (List.pairwise_lt_range l.length).imp ?_
  intro a b hab
  exact_mod_cast Nat.add_lt_add_left hab n

theorem addIdx_nameMap : ∀ (l : List Ingredient) (n : ℕ),
    nameMap (addIdx n l) = nameMap l := by
  intro l
  induction l with
  | nil => intro n; rfl
  | cons a as ih =>
    intro n
    show nameOf a :: nameMap (addIdx (n + 1) as) = nameOf a :: nameMap as
    rw [ih (n + 1)]

theorem strictIdx_of_idMap_eq {l₁ l₂ : List Ingredient}
    (h : idMap l₁ = idMap l₂) (h2 : StrictIdx l₂) : StrictIdx l₁ := by
  have e : ∀ l : List Ingredient,
      l.map idxKey = (idMap l).map (fun x => x.2.2.2.getD 0) := by
    intro l
    unfold idMap
    rw [List.map_map]
    rfl
  unfold StrictIdx at h2 ⊢
  rw [e l₁, h, ← e l₂]
  exact h2

theorem nameMap_of_idMap_eq {l₁ l₂ : List Ingredient}
    (h : idMap l₁ = idMap l₂) : nameMap l₁ = nameMap l₂ := by
  have e : ∀ l : List Ingredient,
      nameMap l = (idMap l).map (fun x => (x.1, x.2.1, x.2.2.1)) := by
    intro l
    unfold nameMap idMap
    rw [List.map_map]
    rfl
  rw [e l₁, e l₂, h]

theorem pipeline_idMap (r : Recipe) (b : BaseArg) (pt ct : JNum) :
    idMap ((scaleRecipeForPaths_FixedProtein r b pt ct).ingredients)
      = idMap (addIdx 0 (pickRawList r b)) := by
  show idMap ((finalizeRecipe r
      (scaleCarbFatToCalories (scaleProteinToTarget (addIdx 0 (pickRawList r b)) pt) ct)
      ct).ingredients) = idMap (addIdx 0 (pickRawList r b))
  have h0 : StrictIdx (addIdx 0 (pickRawList r b)) := addIdx_strict _ 0
  have h1 := prot_stage_idMap (addIdx 0 (pickRawList r b)) pt h0
  have h1s := strictIdx_of_idMap_eq h1 h0
  have h2 := cf_stage_idMap (scaleProteinToTarget (addIdx 0 (pickRawList r b)) pt) ct h1s
  rw [finalize_idMap, h2, h1]

/-- C3 (amended): each stage preserves the relative order of the
ingredient list (positionwise identity fields) whenever the stable
indices are strictly increasing — as the pipeline entry arranges by
numbering the list 0,1,2,…; and the full pipeline always returns the
ingredients in the input order.  For lists without strictly increasing
`_idx` keys a single stage may reorder (scaled partition first). -/
theorem claim3_order_preserved :
    (∀ (l : List Ingredient) (pt : JNum), StrictIdx l →
        idMap (scaleProteinToTarget l pt) = idMap l)
  ∧ (∀ (l : List Ingredient) (ct : JNum), StrictIdx l →
        idMap (scaleCarbFatToCalories l ct) = idMap l)
  ∧ (∀ (r : Recipe) (b : BaseArg) (pt ct : JNum),
        nameMap ((scaleRecipeForPaths_FixedProtein r b pt ct).ingredients)
          = nameMap (pickRawList r b)) := by
  refine ⟨fun l pt hl => prot_stage_idMap l pt hl,
    fun l ct hl => cf_stage_idMap l ct hl, ?_⟩
  intro r b pt ct
  have h := nameMap_of_idMap_eq (pipeline_idMap r b pt ct)
  rw [h, addIdx_nameMap]

theorem claim3_order_preserved_witness :
    idMap (scaleProteinToTarget (addIdx 0 [ingOats, ingChicken]) (JNum.fin 30))
      = idMap (addIdx 0 [ingOats, ingChicken]) :=
  claim3_order_preserved.1 (addIdx 0 [ingOats, ingChicken]) (JNum.fin 30)
    (addIdx_strict [ingOats, ingChicken] 0)

/-- C3 fails as stated for a bare stage call: on a list without `_idx`
keys the protein stage moves the protein partition in front.  Here both
records pass through the stage numerically unchanged (factor 1), yet the
output order is swapped. -/
theorem claim3_order_preserved_cex :
    scaleProteinToTarget [ingOats, ingChicken] (JNum.fin 30) = [ingChicken, ingOats]
  ∧ ([ingChicken, ingOats] : List Ingredient) ≠ [ingOats, ingChicken] := by
  decide

/-- C10: the entry point returns ingredient records that still carry the
internal `_idx` field, equal to each record's zero-based position in the
resolved input list — the index is never stripped. -/
theorem claim10_idx_not_stripped (r : Recipe) (b : BaseArg) (pt ct : JNum) :
    ((scaleRecipeForPaths_FixedProtein r b pt ct).ingredients).length
        = (pickRawList r b).length
  ∧ ∀ (k : ℕ) (i : Ingredient),
      ((scaleRecipeForPaths_FixedProtein r b pt ct).ingredients).get? k = some i →
      i.idx = some ((k : ℚ)) := by
  have hid := pipeline_idMap r b pt ct
  have hidx : ((scaleRecipeForPaths_FixedProtein r b pt ct).ingredients).map (fun i => i.idx)
      = (List.range (pickRawList r b).length).map (fun k => some (((0 + k : ℕ) : ℚ))) := by
    have e : ∀ l : List Ingredient,
        l.map (fun i => i.idx) = (idMap l).map (fun x => x.2.2.2) := by
      intro l
      unfold idMap
      rw [List.map_map]
      rfl
    rw [e, hid, ← e, addIdx_idxMap]
  constructor
  · have hlen := congrArg List.length hidx
    simp only [List.length_map, List.length_range] at hlen
    exact hlen
  · intro k i hk
    have h1 : ((((scaleRecipeForPaths_FixedProtein r b pt ct).ingredients)).map
        (fun i => i.idx)).get? k = some i.idx := by
      rw [List.get?_map, hk]
      rfl
    rw [hidx, List.get?_map] at h1
    have hklt : k < (pickRawList r b).length := by
      by_contra hnot
      have hnone : (List.range (pickRawList r b).length).get? k = none := by
        rw [List.get?_eq_none]
        simpa using le_of_not_lt hnot
      rw [hnone] at h1
      simp at h1
    rw [List.get?_range hklt] at h1
    have h2 : some (((0 + k : ℕ) : ℚ)) = i.idx := by
      simpa using h1
    rw [← h2]
    norm_num

theorem claim10_idx_not_stripped_witness :
    ({ ingOats with idx := some 0 } : Ingredient).idx = some ((0 : ℕ) : ℚ) :=
  (claim10_idx_not_stripped {} (BaseArg.arr [ingOats]) JNum.nan JNum.nan).2 0
    { ingOats with idx := some 0 } (by decide)
